import Mathlib

/-!
Verification of the docx-proofreader extraction core (`src/par.py`, `src/main.py`)
against its natural-language specification.

The WordprocessingML element tree is shallowly embedded as `Node`: every XML
element carries its local tag name (namespace already stripped, as the Python
code does with `tag.split("}")[-1]`), its optional `w:id` attribute, its
optional `w14:paraId` attribute, its text (Python's `elem.text`, with `None`
represented by the empty string, matching the `child.text or ""` reads), and
its list of child elements in document order.

Fallible Python code (dictionary `KeyError`, attribute `KeyError`,
`raise ValueError`, `AttributeError` on `None.find`) is modelled with
`Except String`.
-/

inductive Node where
  | mk (tag : String) (wid : Option String) (paraId : Option String) (text : String) (children : List Node)

def Node.tag : Node → String
  | .mk t _ _ _ _ => t

def Node.wid : Node → Option String
  | .mk _ w _ _ _ => w

def Node.paraId : Node → Option String
  | .mk _ _ p _ _ => p

def Node.text : Node → String
  | .mk _ _ _ x _ => x

def Node.children : Node → List Node
  | .mk _ _ _ _ c => c

/-- Short constructor for a plain `<w:t>` text leaf. -/
def tNode (s : String) : Node := Node.mk "t" none none s []

/-- Short constructor for a `<w:delText>` leaf. -/
def dtNode (s : String) : Node := Node.mk "delText" none none s []

/-- Short constructor for a run `<w:r>` holding a single text leaf. -/
def rT (s : String) : Node := Node.mk "r" none none "" [tNode s]

/-- Short constructor for a run `<w:r>` holding a single `<w:delText>` leaf. -/
def rDT (s : String) : Node := Node.mk "r" none none "" [dtNode s]

/-- Short constructor for `<w:commentRangeStart w:id=...>`. -/
def crs (id : String) : Node := Node.mk "commentRangeStart" (some id) none "" []

/-- Short constructor for `<w:commentRangeEnd w:id=...>`. -/
def cre (id : String) : Node := Node.mk "commentRangeEnd" (some id) none "" []

/-- Short constructor for a paragraph `<w:p>` with the given children. -/
def pNode (cs : List Node) : Node := Node.mk "p" none none "" cs

/-- Short constructor for an insertion block `<w:ins>`. -/
def insNode (cs : List Node) : Node := Node.mk "ins" none none "" cs

/-- Short constructor for a deletion block `<w:del>`. -/
def delNode (cs : List Node) : Node := Node.mk "del" none none "" cs

/-! ### Formatting helpers (`par.py` lines 15-26, `main.py` lines 9-21) -/

def format_insertion_text (text : String) : String := "**" ++ text ++ "**"

def format_deletion_text (text : String) : String := "--" ++ text ++ "--"

/-- Model of Python's `re.search(r"\*\*.*?\*\*", ...)` closing scan: after an
opening pair of `mark` characters, scan for a closing pair of `mark`
characters with no newline in between (`.` does not match a newline). -/
def closesNoNewline (mark : Char) : List Char → Bool
  | c1 :: c2 :: rest =>
    if c1 = mark ∧ c2 = mark then true
    else if c1 = '\n' then false
    else closesNoNewline mark (c2 :: rest)
  | _ => false

/-- Does an alternative of the regex `\*\*.*?\*\*|--.*?--` match at the head
of the character list? -/
def openMatch : List Char → Bool
  | c1 :: c2 :: tl =>
    if c1 = '*' ∧ c2 = '*' then closesNoNewline '*' tl
    else if c1 = '-' ∧ c2 = '-' then closesNoNewline '-' tl
    else false
  | _ => false

/-- Model of `re.search`: try to match at every position, left to right. -/
def hasEditsList : List Char → Bool
  | [] => false
  | c :: rest => openMatch (c :: rest) || hasEditsList rest

/-- `has_edits` (`par.py` line 21, `main.py` line 15): does the content
contain a match of `\*\*.*?\*\*|--.*?--` anywhere? -/
def has_edits (content : String) : Bool := hasEditsList content.data

/-! ### `get_plain_text` (`par.py` lines 28-38)

Python iterates `element.iter()` (the element itself followed by all of its
descendants in document order) and concatenates the text of every `t` /
`delText` node, using `child.text or ""`. -/

mutual

def get_plain_text : Node → String
  | .mk tag _ _ text children =>
    (if tag = "t" ∨ tag = "delText" then text else "") ++ get_plain_text_list children

def get_plain_text_list : List Node → String
  | [] => ""
  | c :: cs => get_plain_text c ++ get_plain_text_list cs

end

/-! ### `get_paragraph_text` (`par.py` lines 49-83)

The per-child loop body: an `ins` block contributes its whole plain text
formatted once (skipped when empty), a `del` block likewise, a run
contributes its plain text, and any other child is processed recursively. -/

mutual

def gpt_child : Node → String
  | .mk tag wid pid text children =>
    if tag = "ins" then
      let ins_text := get_plain_text (.mk tag wid pid text children)
      if ins_text = "" then "" else format_insertion_text ins_text
    else if tag = "del" then
      let del_text := get_plain_text (.mk tag wid pid text children)
      if del_text = "" then "" else format_deletion_text del_text
    else if tag = "r" then
      get_plain_text (.mk tag wid pid text children)
    else
      gpt_list children

def gpt_list : List Node → String
  | [] => ""
  | c :: cs => gpt_child c ++ gpt_list cs

end

def get_paragraph_text (element : Node) : String := gpt_list element.children

/-! ### Descendant enumeration

`ElementTree`'s `.findall(".//w:x")` / `.find(".//w:x")` return the
descendants of a node (the node itself excluded) in document order. -/

mutual

def subtree : Node → List Node
  | .mk tag wid pid text children => Node.mk tag wid pid text children :: descList children

def descList : List Node → List Node
  | [] => []
  | n :: ns => subtree n ++ descList ns

end

/-- All descendants of `n` (excluding `n` itself) in document order. -/
def descendants (n : Node) : List Node := descList n.children

/-! ### `extract_paragraphs` (`par.py` lines 40-47)

For every `<w:p>` descendant, reads the `w14:paraId` attribute (a Python
`KeyError` — modelled as `Except.error` — when absent), renders the
paragraph, and keeps it when the rendered text is non-empty. -/

def findAllP (root : Node) : List Node :=
  (descendants root).filter (fun n => n.tag == "p")

def extractParas : List Node → List (String × String) → Except String (List (String × String))
  | [], acc => .ok acc
  | p :: ps, acc =>
    match p.paraId with
    | none => .error "KeyError: w14:paraId"
    | some paragraph_id =>
      let paragraph_text := get_paragraph_text p
      extractParas ps (if paragraph_text = "" then acc else acc ++ [(paragraph_id, paragraph_text)])

def extract_paragraphs (root : Node) : Except String (List (String × String)) :=
  extractParas (findAllP root) []

/-! ### `get_comment_ids_in_paragraph` (`par.py` lines 85-102)

For every `<w:commentRangeStart>` descendant of the paragraph (document
order), reads its `w:id` attribute and keeps the id only when a
`<w:commentRangeEnd>` with the same `w:id` exists in the same paragraph;
otherwise the id is skipped after printing a warning. -/

def collectIds (paragraph_el : Node) : List Node → Except String (List String)
  | [] => .ok []
  | start :: starts =>
    match start.wid with
    | none => .error "KeyError: w:id"
    | some comment_id =>
      match collectIds paragraph_el starts with
      | .error e => .error e
      | .ok rest =>
        if (descendants paragraph_el).any
            (fun n => n.tag == "commentRangeEnd" && n.wid == some comment_id) then
          .ok (comment_id :: rest)
        else
          .ok rest

def get_comment_ids_in_paragraph (paragraph_el : Node) : Except String (List String) :=
  collectIds paragraph_el
    ((descendants paragraph_el).filter (fun n => n.tag == "commentRangeStart"))

/-! ### `get_comment_anchors` (`par.py` lines 105-153)

The depth-first walk over a paragraph keeping the list of currently active
comment ids and the ancestor stack (top of the stack at the head, so
Python's `ancestors[-3]` is `get? 2`).  The accumulator `comments` is the
`{id: {"anchor": ...}}` dictionary, kept as an insertion-ordered
association list; `comments[comment_id]["anchor"] += text` raises a
`KeyError` when `comment_id` is not a key, modelled by `Except.error`. -/

def appendToAll : List String → String → List (String × String) → Except String (List (String × String))
  | [], _, comments => .ok comments
  | comment_id :: ids, text, comments =>
    if comments.any (fun c => c.1 = comment_id) then
      appendToAll ids text
        (comments.map (fun c => if c.1 = comment_id then (c.1, c.2 ++ text) else c))
    else
      .error ("KeyError: " ++ comment_id)

def goNodes : List Node → List Node → List String → List (String × String) →
    Except String (List String × List (String × String))
  | [], _, active_comments, comments => .ok (active_comments, comments)
  | .mk tag wid pid txt children :: rest, ancestors, active_comments, comments =>
    let elem := Node.mk tag wid pid txt children
    let anc := elem :: ancestors
    let step1 : Except String (List String × List (String × String)) :=
      if tag = "commentRangeStart" then
        match wid with
        | none => .error "KeyError: w:id"
        | some comment_id => .ok (active_comments ++ [comment_id], comments)
      else if active_comments.isEmpty = false ∧ (tag = "t" ∨ tag = "delText") then
        let text := txt
        let text :=
          match anc.get? 2 with
          | some grandparent =>
            if grandparent.tag = "ins" then format_insertion_text text
            else if grandparent.tag = "del" then format_deletion_text text
            else text
          | none => text
        match appendToAll active_comments text comments with
        | .error e => .error e
        | .ok comments1 => .ok (active_comments, comments1)
      else
        .ok (active_comments, comments)
    match step1 with
    | .error e => .error e
    | .ok (active1, comments1) =>
      match goNodes children anc active1 comments1 with
      | .error e => .error e
      | .ok (active2, comments2) =>
        let step3 : Except String (List String) :=
          if tag = "commentRangeEnd" then
            match wid with
            | none => .error "KeyError: w:id"
            | some comment_id =>
              .ok (if active2.contains comment_id then active2.erase comment_id else active2)
          else
            .ok active2
        match step3 with
        | .error e => .error e
        | .ok active3 => goNodes rest ancestors active3 comments2

def get_comment_anchors (parent : Node) (active_comments : List String)
    (comments : List (String × String)) (ancestors : List Node) :
    Except String (List (String × String)) :=
  (goNodes parent.children ancestors active_comments comments).map (fun r => r.2)

/-! ### `sort_comment_replies` (`par.py` lines 155-178, `main.py` lines 201-224)

Groups the `{id: {"anchor": ...}}` mapping (insertion-ordered, i.e. the
order in which the comment ranges were opened) by anchor value, preserving
both the first-occurrence order of anchors (Python dict iteration order)
and the order of ids within a group; the first id of each group becomes the
main comment and the rest become its replies. -/

structure SortedComment where
  id : String
  anchor : String
  replies : List String
deriving DecidableEq, Repr

def group_fold (acc : List (String × String × List String)) (c : String × String) :
    List (String × String × List String) :=
  if acc.any (fun g => g.1 = c.2) then
    acc.map (fun g => if g.1 = c.2 then (g.1, g.2.1, g.2.2 ++ [c.1]) else g)
  else
    acc ++ [(c.2, c.1, [])]

def sort_comment_replies (comments : List (String × String)) : List SortedComment :=
  (comments.foldl group_fold []).map (fun g => ⟨g.2.1, g.1, g.2.2⟩)

/-! ### `get_comment_content` (`par.py` lines 180-199, `main.py` lines 158-199)

Looks up each main comment id and each reply id among the direct
`<w:comment>` children of the comments root; a missing id raises
`ValueError` (fatal).  The attached body is the text of the FIRST `<w:t>`
descendant of the definition (`comment_elem.find(".//w:t").text`); when the
definition has no `<w:t>` descendant, `find` returns `None` and the `.text`
access raises `AttributeError`. -/

structure FilledComment where
  id : String
  anchor : String
  content : String
  replies : List (String × String)
deriving DecidableEq, Repr

def find_direct_comment (comments_root : Node) (comment_id : String) : Option Node :=
  comments_root.children.find? (fun c => c.tag == "comment" && c.wid == some comment_id)

mutual

def find_first_t_node : Node → Option Node
  | .mk tag wid pid text children =>
    if tag = "t" then some (Node.mk tag wid pid text children)
    else find_first_t_list children

def find_first_t_list : List Node → Option Node
  | [] => none
  | c :: cs =>
    match find_first_t_node c with
    | some t => some t
    | none => find_first_t_list cs

end

/-- First `<w:t>` descendant of a node (the node itself excluded), in
document order — `elem.find(".//w:t")`. -/
def find_first_t (elem : Node) : Option Node := find_first_t_list elem.children

def fill_replies (comments_root : Node) : List String → Except String (List (String × String))
  | [] => .ok []
  | reply_id :: ids =>
    match find_direct_comment comments_root reply_id with
    | none => .error ("Couldn't find reply with id=" ++ reply_id)
    | some reply_elem =>
      match find_first_t reply_elem with
      | none => .error "AttributeError: NoneType has no attribute text"
      | some t_elem =>
        match fill_replies comments_root ids with
        | .error e => .error e
        | .ok rest => .ok ((reply_id, t_elem.text) :: rest)

def get_comment_content (comments_root : Node) : List SortedComment → Except String (List FilledComment)
  | [] => .ok []
  | comment :: cs =>
    match find_direct_comment comments_root comment.id with
    | none => .error ("Couldn't find comment with id=" ++ comment.id)
    | some comment_elem =>
      match find_first_t comment_elem with
      | none => .error "AttributeError: NoneType has no attribute text"
      | some t_elem =>
        match fill_replies comments_root comment.replies with
        | .error e => .error e
        | .ok replies =>
          match get_comment_content comments_root cs with
          | .error e => .error e
          | .ok rest => .ok (⟨comment.id, comment.anchor, t_elem.text, replies⟩ :: rest)

/-! ### `get_context` (`par.py` lines 221-235, `main.py` lines 226-240)

Pure window selection: `start = max(0, index - context_level)`,
`end = min(len(paragraphs), index + context_level + 1)`, deep copy of the
slice, then every copied paragraph is marked with
`working_paragraph = (start + i == index)`.  The mark is modelled as the
`Bool` component of each returned pair. -/

def mark_working {α : Type} : List α → Nat → Nat → List (α × Bool)
  | [], _, _ => []
  | p :: ps, pos, index => (p, pos == index) :: mark_working ps (pos + 1) index

def get_context {α : Type} (paragraphs : List α) (index : Nat) (context_level : Nat) :
    List (α × Bool) :=
  let start := max 0 (index - context_level)
  let stop := min paragraphs.length (index + context_level + 1)
  mark_working ((paragraphs.drop start).take (stop - start)) start index

/-! ### `generate_instructions` (`par.py` lines 237-246)

A paragraph qualifies when it has comments or `has_edits` matches its
rendered content; each qualifying paragraph contributes its context window
(`context_level=1`). -/

structure Para where
  content : String
  comments : List FilledComment
deriving DecidableEq, Repr

def gen_aux (all : List Para) : List Para → Nat → List (List (Para × Bool))
  | [], _ => []
  | paragraph :: rest, index =>
    (if paragraph.comments.isEmpty = false ∨ has_edits paragraph.content then
      [get_context all index 1]
    else []) ++ gen_aux all rest (index + 1)

def generate_instructions (paragraphs : List Para) : List (List (Para × Bool)) :=
  gen_aux paragraphs paragraphs 0


/-- A chain of `k` unrecognized wrapper elements around a node; wrappers fall
into `get_paragraph_text`'s recursive catch-all branch. -/
def wrapK : Nat → Node → Node
  | 0, n => n
  | k + 1, n => Node.mk "wrapper" none none "" [wrapK k n]

/-- Invariant of the grouping fold of `sort_comment_replies`: after
processing a prefix of the comment list, every accumulated group holds
exactly the ids whose anchor equals the group key, in input order with the
first one in primary position; group keys are distinct and cover every
processed anchor. -/
def GInv (processed : List (String × String)) (acc : List (String × String × List String)) : Prop :=
  (∀ g ∈ acc, g.2.1 :: g.2.2 = (processed.filter (fun c => c.2 = g.1)).map Prod.fst)
  ∧ (acc.map Prod.fst).Nodup
  ∧ (∀ c ∈ processed, ∃ g ∈ acc, g.1 = c.2)

/-- A comment-definitions store whose single definition (id "1") holds two
text leaves, " a " and "b". -/
def c6_store : Node :=
  Node.mk "comments" none none ""
    [Node.mk "comment" (some "1") none ""
      [Node.mk "p" none none ""
        [Node.mk "r" none none "" [tNode " a "],
         Node.mk "r" none none "" [tNode "b"]]]]


/-! ### General helper lemmas -/

theorem except_map_ok {e a b : Type} (f : a → b) (x : a) :
    (Except.map f (Except.ok x) : Except e b) = Except.ok (f x) := rfl

theorem except_map_error {e a b : Type} (f : a → b) (err : e) :
    (Except.map f (Except.error err) : Except e b) = Except.error err := rfl

theorem appendToAll_preserve (text : String) :
    ∀ (active : List String) (comments comments' : List (String × String)) (id x : String),
      id ∉ active → (id, x) ∈ comments →
      appendToAll active text comments = .ok comments' → (id, x) ∈ comments' := by
  intro active
  induction active with
  | nil =>
    intro comments comments' id x _ hmem h
    simp only [appendToAll, Except.ok.injEq] at h
    exact h ▸ hmem
  | cons a as ih =>
    intro comments comments' id x hnot hmem h
    have hne : id ≠ a := fun he => hnot (he ▸ List.mem_cons_self a as)
    have hnot' : id ∉ as := fun hin => hnot (List.mem_cons_of_mem a hin)
    by_cases hany : comments.any (fun c => c.1 = a)
    · simp only [appendToAll, hany, if_true] at h
      apply ih _ _ _ _ hnot' _ h
      have himg : (fun c => if c.1 = a then (c.1, c.2 ++ text) else c) (id, x) = (id, x) := by
        simp [hne]
      exact himg ▸ List.mem_map_of_mem _ hmem
    · simp only [appendToAll, hany, if_false] at h
      cases h

theorem appendToAll_appends (text : String) :
    ∀ (active : List String) (comments comments' : List (String × String)) (id anchor : String),
      active.Nodup → (id, anchor) ∈ comments → id ∈ active →
      appendToAll active text comments = .ok comments' → (id, anchor ++ text) ∈ comments' := by
  intro active
  induction active with
  | nil => intro _ _ _ _ _ _ hid _; cases hid
  | cons a as ih =>
    intro comments comments' id anchor hnodup hmem hid h
    have hanodup := (List.nodup_cons.mp hnodup).2
    have hanotin := (List.nodup_cons.mp hnodup).1
    by_cases hany : comments.any (fun c => c.1 = a)
    · simp only [appendToAll, hany, if_true] at h
      rcases List.mem_cons.mp hid with he | hin
      · subst he
        have hmem' : (id, anchor ++ text) ∈
            comments.map (fun c => if c.1 = id then (c.1, c.2 ++ text) else c) := by
          have himg : (fun c => if c.1 = id then (c.1, c.2 ++ text) else c) (id, anchor)
              = (id, anchor ++ text) := by simp
          exact himg ▸ List.mem_map_of_mem _ hmem
        exact appendToAll_preserve text as _ _ _ _ hanotin hmem' h
      · have hne : id ≠ a := fun he => hanotin (he ▸ hin)
        have hmem' : (id, anchor) ∈
            comments.map (fun c => if c.1 = a then (c.1, c.2 ++ text) else c) := by
          have himg : (fun c => if c.1 = a then (c.1, c.2 ++ text) else c) (id, anchor)
              = (id, anchor) := by simp [hne]
          exact himg ▸ List.mem_map_of_mem _ hmem
        exact ih _ _ _ _ hanodup hmem' hin h
    · simp only [appendToAll, hany, if_false] at h
      cases h

/-! ### Helper lemmas for the text extractor (C3) -/

theorem gpt_list_append (l1 l2 : List Node) :
    gpt_list (l1 ++ l2) = gpt_list l1 ++ gpt_list l2 := by
  induction l1 with
  | nil => simp [gpt_list, String.empty_append]
  | cons c cs ih => simp [gpt_list, ih, String.append_assoc]

theorem gpt_child_wrapK (k : Nat) (n : Node) : gpt_child (wrapK k n) = gpt_child n := by
  induction k with
  | zero => rfl
  | succ k ih =>
    show gpt_child (Node.mk "wrapper" none none "" [wrapK k n]) = gpt_child n
    simp [gpt_child, gpt_list, ih, String.append_empty]

/-! ### Helper lemmas for the edit-marker regex (C9, C10) -/

theorem closesNoNewline_cons2 (m c1 c2 : Char) (rest : List Char) :
    closesNoNewline m (c1 :: c2 :: rest)
      = (if c1 = m ∧ c2 = m then true
         else if c1 = '\n' then false
         else closesNoNewline m (c2 :: rest)) := rfl

theorem openMatch_cons2 (c1 c2 : Char) (tl : List Char) :
    openMatch (c1 :: c2 :: tl)
      = (if c1 = '*' ∧ c2 = '*' then closesNoNewline '*' tl
         else if c1 = '-' ∧ c2 = '-' then closesNoNewline '-' tl
         else false) := rfl

theorem hasEditsList_cons (c : Char) (rest : List Char) :
    hasEditsList (c :: rest) = (openMatch (c :: rest) || hasEditsList rest) := rfl

theorem closes_of_decomp (m : Char) (mid post : List Char) (hmid : '\n' ∉ mid) :
    closesNoNewline m (mid ++ m :: m :: post) = true := by
  induction mid with
  | nil => simp [closesNoNewline_cons2]
  | cons c mid' ih =>
    have hc : c ≠ '\n' := fun he => hmid (he ▸ List.mem_cons_self c mid')
    have hmid' : '\n' ∉ mid' := fun hin => hmid (List.mem_cons_of_mem c hin)
    show closesNoNewline m (c :: (mid' ++ m :: m :: post)) = true
    cases hm : mid' ++ m :: m :: post with
    | nil => simp at hm
    | cons d ds =>
      have ih' : closesNoNewline m (d :: ds) = true := hm ▸ ih hmid'
      rw [closesNoNewline_cons2]
      by_cases h1 : c = m ∧ d = m
      · rw [if_pos h1]
      · rw [if_neg h1, if_neg hc]
        exact ih'

theorem closes_iff (m : Char) (tl : List Char) :
    closesNoNewline m tl = true ↔ ∃ mid post, tl = mid ++ m :: m :: post ∧ '\n' ∉ mid := by
  constructor
  · intro h
    induction tl with
    | nil => simp [closesNoNewline] at h
    | cons c1 rest ih =>
      cases rest with
      | nil => simp [closesNoNewline] at h
      | cons c2 rest2 =>
        rw [closesNoNewline_cons2] at h
        by_cases h1 : c1 = m ∧ c2 = m
        · exact ⟨[], rest2, by simp [h1.1, h1.2], by simp⟩
        · rw [if_neg h1] at h
          by_cases h2 : c1 = '\n'
          · simp [h2] at h
          · rw [if_neg h2] at h
            obtain ⟨mid, post, heq, hnin⟩ := ih h
            refine ⟨c1 :: mid, post, by simp [heq], ?_⟩
            intro hin
            rcases List.mem_cons.mp hin with he | he
            · exact h2 he.symm
            · exact hnin he
  · rintro ⟨mid, post, rfl, hnin⟩
    exact closes_of_decomp m mid post hnin

theorem openMatch_true_iff (cs : List Char) :
    openMatch cs = true ↔
      (∃ mid post, cs = '*' :: '*' :: (mid ++ '*' :: '*' :: post) ∧ '\n' ∉ mid)
      ∨ (∃ mid post, cs = '-' :: '-' :: (mid ++ '-' :: '-' :: post) ∧ '\n' ∉ mid) := by
  cases cs with
  | nil => simp [openMatch]
  | cons c1 rest =>
    cases rest with
    | nil => simp [openMatch]
    | cons c2 tl =>
      rw [openMatch_cons2]
      by_cases h1 : c1 = '*' ∧ c2 = '*'
      · rw [if_pos h1, closes_iff]
        obtain ⟨rfl, rfl⟩ := h1
        simp
      · rw [if_neg h1]
        by_cases h2 : c1 = '-' ∧ c2 = '-'
        · rw [if_pos h2, closes_iff]
          obtain ⟨rfl, rfl⟩ := h2
          simp
        · rw [if_neg h2]
          constructor
          · intro h; cases h
          · rintro (⟨mid, post, heq, -⟩ | ⟨mid, post, heq, -⟩)
            · injection heq with ha hb
              injection hb with hb _
              exact absurd (And.intro ha hb) h1
            · injection heq with ha hb
              injection hb with hb _
              exact absurd (And.intro ha hb) h2

theorem shift_decomp (a b c : Char) (rest : List Char) :
    (∃ pre mid post, c :: rest = pre ++ a :: b :: (mid ++ a :: b :: post) ∧ '\n' ∉ mid) ↔
      (∃ mid post, c :: rest = a :: b :: (mid ++ a :: b :: post) ∧ '\n' ∉ mid)
      ∨ (∃ pre mid post, rest = pre ++ a :: b :: (mid ++ a :: b :: post) ∧ '\n' ∉ mid) := by
  constructor
  · rintro ⟨pre, mid, post, heq, hnin⟩
    cases pre with
    | nil => exact Or.inl ⟨mid, post, by simpa using heq, hnin⟩
    | cons p pre' =>
      injection heq with h1 h2
      exact Or.inr ⟨pre', mid, post, h2, hnin⟩
  · rintro (⟨mid, post, heq, hnin⟩ | ⟨pre, mid, post, heq, hnin⟩)
    · exact ⟨[], mid, post, by simpa using heq, hnin⟩
    · exact ⟨c :: pre, mid, post, by simp [heq], hnin⟩

theorem hasEditsList_true_iff (cs : List Char) :
    hasEditsList cs = true ↔
      (∃ pre mid post, cs = pre ++ '*' :: '*' :: (mid ++ '*' :: '*' :: post) ∧ '\n' ∉ mid)
      ∨ (∃ pre mid post, cs = pre ++ '-' :: '-' :: (mid ++ '-' :: '-' :: post) ∧ '\n' ∉ mid) := by
  induction cs with
  | nil =>
    simp only [hasEditsList]
    constructor
    · intro h; cases h
    · rintro (⟨pre, mid, post, heq, -⟩ | ⟨pre, mid, post, heq, -⟩) <;> (cases pre <;> simp_all)
  | cons c rest ih =>
    rw [hasEditsList_cons, Bool.or_eq_true, openMatch_true_iff, ih,
      shift_decomp '*' '*' c rest, shift_decomp '-' '-' c rest]
    exact or_or_or_comm

theorem noGlyph (cs : List Char) (hstar : '*' ∉ cs) (hdash : '-' ∉ cs) :
    hasEditsList cs = false := by
  induction cs with
  | nil => rfl
  | cons c rest ih =>
    have hc1 : c ≠ '*' := fun he => hstar (he ▸ List.mem_cons_self c rest)
    have hc2 : c ≠ '-' := fun he => hdash (he ▸ List.mem_cons_self c rest)
    have hs' : '*' ∉ rest := fun hin => hstar (List.mem_cons_of_mem c hin)
    have hd' : '-' ∉ rest := fun hin => hdash (List.mem_cons_of_mem c hin)
    rw [hasEditsList_cons, ih hs' hd', Bool.or_false]
    cases rest with
    | nil => rfl
    | cons c2 tl =>
      rw [openMatch_cons2, if_neg (fun h => hc1 h.1), if_neg (fun h => hc2 h.1)]

/-! ### Helper lemmas for thread grouping (C5) -/

theorem group_fold_step (processed : List (String × String))
    (acc : List (String × String × List String)) (c : String × String)
    (h : GInv processed acc) : GInv (processed ++ [c]) (group_fold acc c) := by
  obtain ⟨h1, h2, h3⟩ := h
  unfold group_fold
  by_cases hany : acc.any (fun g => g.1 = c.2)
  · rw [if_pos hany]
    have hfst : ∀ g : String × String × List String,
        (if g.1 = c.2 then (g.1, g.2.1, g.2.2 ++ [c.1]) else g).1 = g.1 := by
      intro g; by_cases he : g.1 = c.2 <;> simp [he]
    refine ⟨?_, ?_, ?_⟩
    · intro g' hg'
      obtain ⟨g, hg, rfl⟩ := List.mem_map.mp hg'
      obtain ⟨a, p, rs⟩ := g
      have hone := h1 (a, p, rs) hg
      simp only at hone
      by_cases he : a = c.2
      · subst he
        simp only [eq_self_iff_true, if_true]
        show p :: (rs ++ [c.1]) = ((processed ++ [c]).filter (fun x => x.2 = c.2)).map Prod.fst
        rw [List.filter_append, List.map_append]
        have hsing : ([c].filter (fun x => x.2 = c.2)).map Prod.fst = [c.1] := by simp
        rw [hsing, ← hone]
        simp
      · rw [if_neg he]
        simp only [List.filter_append, List.map_append, List.filter_cons, List.filter_nil,
          decide_eq_true_eq]
        rw [if_neg (fun hx => he hx.symm)]
        simpa using hone
    · have hmap : (acc.map (fun g => if g.1 = c.2 then (g.1, g.2.1, g.2.2 ++ [c.1]) else g)).map
          Prod.fst = acc.map Prod.fst := by
        rw [List.map_map]
        apply List.map_congr_left
        intro g _
        exact hfst g
      rw [hmap]
      exact h2
    · intro x hx
      rcases List.mem_append.mp hx with hin | hin
      · obtain ⟨g, hg, hgx⟩ := h3 x hin
        exact ⟨_, List.mem_map_of_mem _ hg, (hfst g).trans hgx⟩
      · obtain ⟨g, hg, hgx⟩ := List.any_eq_true.mp hany
        have hx' : x = c := by simpa using hin
        subst hx'
        have hgx' : g.1 = x.2 := by simpa using hgx
        exact ⟨_, List.mem_map_of_mem _ hg, (hfst g).trans hgx'⟩
  · rw [if_neg hany]
    have hkeys : ∀ g ∈ acc, g.1 ≠ c.2 := by
      intro g hg he
      exact hany (List.any_eq_true.mpr ⟨g, hg, by simpa using he⟩)
    have hproc : ∀ x ∈ processed, x.2 ≠ c.2 := by
      intro x hx he
      obtain ⟨g, hg, hgx⟩ := h3 x hx
      exact hkeys g hg (hgx.trans he)
    refine ⟨?_, ?_, ?_⟩
    · intro g' hg'
      rcases List.mem_append.mp hg' with hin | hin
      · simp only [List.filter_append, List.map_append, List.filter_cons, List.filter_nil,
          decide_eq_true_eq]
        rw [if_neg (fun hx => hkeys g' hin hx.symm)]
        simpa using h1 g' hin
      · have hg'' : g' = (c.2, c.1, []) := by simpa using hin
        subst hg''
        simp only [List.filter_append]
        have hfp : processed.filter (fun x => x.2 = c.2) = [] := by
          rw [List.filter_eq_nil_iff]
          intro x hx
          simpa using hproc x hx
        simp [hfp]
    · rw [List.map_append, List.nodup_append]
      refine ⟨h2, by simp, ?_⟩
      intro a ha hb
      have hac : a = c.2 := by simpa using hb
      subst hac
      obtain ⟨g, hg, hgx⟩ := List.mem_map.mp ha
      exact hkeys g hg hgx
    · intro x hx
      rcases List.mem_append.mp hx with hin | hin
      · obtain ⟨g, hg, hgx⟩ := h3 x hin
        exact ⟨g, List.mem_append_left _ hg, hgx⟩
      · have hx' : x = c := by simpa using hin
        subst hx'
        exact ⟨(x.2, x.1, []), List.mem_append_right _ (by simp), rfl⟩

theorem group_fold_inv (cs : List (String × String)) :
    ∀ (processed : List (String × String)) (acc : List (String × String × List String)),
      GInv processed acc → GInv (processed ++ cs) (cs.foldl group_fold acc) := by
  induction cs with
  | nil => intro processed acc h; simpa using h
  | cons c cs ih =>
    intro processed acc h
    have hstep := ih (processed ++ [c]) (group_fold acc c) (group_fold_step processed acc c h)
    simpa [List.append_assoc] using hstep

theorem sort_comment_replies_inv (comments : List (String × String)) :
    GInv comments (comments.foldl group_fold []) := by
  have h := group_fold_inv comments [] [] ⟨by simp, by simp, by simp⟩
  simpa using h

/-! ### Helper lemmas for the context windower (C7) -/

theorem mark_working_map_fst {α : Type} (l : List α) (pos index : Nat) :
    (mark_working l pos index).map Prod.fst = l := by
  induction l generalizing pos with
  | nil => rfl
  | cons p ps ih => simp [mark_working, ih]

theorem mark_working_get? {α : Type} (l : List α) (pos index i : Nat) :
    (mark_working l pos index).get? i = (l.get? i).map (fun p => (p, pos + i == index)) := by
  induction l generalizing pos i with
  | nil => simp [mark_working]
  | cons p ps ih =>
    cases i with
    | zero => simp [mark_working]
    | succ j =>
      simp only [mark_working, List.get?_cons_succ, ih (pos + 1) j]
      have harith : pos + 1 + j = pos + (j + 1) := by omega
      rw [harith]

theorem mark_working_count {α : Type} (l : List α) (pos index : Nat) :
    ((mark_working l pos index).filter (fun q => q.2)).length
      = if pos ≤ index ∧ index < pos + l.length then 1 else 0 := by
  induction l generalizing pos with
  | nil =>
    simp only [mark_working, List.filter_nil, List.length_nil]
    rw [if_neg (by omega)]
  | cons p ps ih =>
    simp only [mark_working, List.filter_cons]
    by_cases h : pos = index
    · have hb : (pos == index) = true := by simpa using h
      simp only [hb, eq_self_iff_true, if_true, List.length_cons, ih (pos + 1)]
      split_ifs <;> omega
    · have hb : (pos == index) = false := by simpa using h
      simp only [hb, Bool.false_eq_true, if_false, ih (pos + 1), List.length_cons]
      split_ifs <;> omega

/-! ### Helper lemmas for paragraph extraction (C8) -/

theorem extractParas_ok (ps : List Node) :
    ∀ acc, (∀ p ∈ ps, p.paraId ≠ none) → ∃ out, extractParas ps acc = .ok out := by
  induction ps with
  | nil => intro acc _; exact ⟨acc, rfl⟩
  | cons p ps ih =>
    intro acc hall
    cases hp : p.paraId with
    | none => exact absurd hp (hall p (List.mem_cons_self p ps))
    | some pid =>
      obtain ⟨out, hout⟩ := ih _ (fun q hq => hall q (List.mem_cons_of_mem p hq))
      refine ⟨out, ?_⟩
      rw [extractParas, hp]
      exact hout

theorem extractParas_err (ps : List Node) :
    ∀ acc (p : Node), p ∈ ps → p.paraId = none → ∃ e, extractParas ps acc = .error e := by
  induction ps with
  | nil => intro _ _ h _; cases h
  | cons q ps ih =>
    intro acc p hmem hnone
    cases hq : q.paraId with
    | none => exact ⟨"KeyError: w14:paraId", by rw [extractParas, hq]⟩
    | some qid =>
      rcases List.mem_cons.mp hmem with he | hin
      · subst he; rw [hq] at hnone; cases hnone
      · obtain ⟨e, he⟩ := ih _ p hin hnone
        refine ⟨e, ?_⟩
        rw [extractParas, hq]
        exact he


/-! ### The claims -/

/-- C1: while walking a paragraph, `get_comment_anchors` appends every text
leaf it visits to the anchor of every currently open comment range (the
whole active set, not a single cursor), so for nested ranges A ⊇ B the
paragraph `x<startA><startB>y</endB>z</endA>` resolves `anchor[B] = y` and
`anchor[A] = yz` (a superset substring of `anchor[B]` in document order),
and the same per-leaf attribution holds for overlapping, non-nested
ranges: `<startA>x<startB>y</endA>z</endB>` resolves `anchor[A] = xy` and
`anchor[B] = yz`. -/
theorem c1_anchor_attribution_nested_and_overlapping :
    (∀ (active : List String) (text : String) (comments comments' : List (String × String))
        (id anchor : String),
        active.Nodup → appendToAll active text comments = .ok comments' →
        (id, anchor) ∈ comments → id ∈ active → (id, anchor ++ text) ∈ comments')
    ∧ (∀ x y z : String,
        get_comment_anchors (pNode [rT x, crs "A", crs "B", rT y, cre "B", rT z, cre "A"])
          [] [("A", ""), ("B", "")] [] = .ok [("A", y ++ z), ("B", y)])
    ∧ (∀ x y z : String,
        get_comment_anchors (pNode [crs "A", rT x, crs "B", rT y, cre "A", rT z, cre "B"])
          [] [("A", ""), ("B", "")] [] = .ok [("A", x ++ y), ("B", y ++ z)]) := by
  refine ⟨fun active text comments comments' id anchor h1 h2 h3 h4 =>
    appendToAll_appends text active comments comments' id anchor h1 h3 h4 h2, ?_, ?_⟩
  · intro x y z
    simp [get_comment_anchors, goNodes, pNode, crs, cre, rT, tNode, appendToAll,
      Node.tag, Node.wid, Node.children, except_map_ok, String.empty_append, String.append_assoc]
  · intro x y z
    simp [get_comment_anchors, goNodes, pNode, crs, cre, rT, tNode, appendToAll,
      Node.tag, Node.wid, Node.children, except_map_ok, String.empty_append, String.append_assoc]

/-- C1 witness: the attribution step evaluated at the concrete active set
containing only id "A" appends the visited text to A's anchor. -/
theorem c1_anchor_attribution_witness :
    ("A", ("" : String) ++ "t") ∈ ([("A", "t")] : List (String × String)) :=
  c1_anchor_attribution_nested_and_overlapping.1 ["A"] "t" [("A", "")] [("A", "t")] "A" ""
    (by decide) (by rfl) (by decide) (by decide)

/-- C2 counterexample: a text leaf three levels below an insertion block
(`ins` > wrapper > run > leaf) is NOT formatted as an insertion, because
`get_comment_anchors` checks exactly `ancestors[-3]` (the leaf's
grandparent), not a scan of the whole ancestor stack; the resolved anchor
is the bare leaf text. -/
theorem c2_fixed_depth_counterexample :
    get_comment_anchors
        (pNode [crs "1", insNode [Node.mk "w" none none "" [rT "y"]], cre "1"])
        [] [("1", "")] [] = .ok [("1", "y")]
    ∧ ("y" : String) ≠ format_insertion_text "y" := by
  constructor
  · simp [get_comment_anchors, goNodes, pNode, crs, cre, insNode, rT, tNode, appendToAll,
      Node.tag, Node.wid, Node.children, except_map_ok]
  · decide

/-- C2 amended: `get_comment_anchors` decides insertion/deletion formatting
of a text leaf by a fixed-depth lookup of the element two levels above the
leaf in the ancestor stack (Python `ancestors[-3]`, the leaf itself on
top): a leaf whose grandparent is an `ins` block is formatted as an
insertion, a leaf whose grandparent is a `del` block as a deletion, and a
leaf nested deeper below such a block is appended unchanged. -/
theorem c2_grandparent_lookup_amended (s : String) :
    get_comment_anchors (pNode [crs "1", insNode [rT s], cre "1"]) [] [("1", "")] []
      = .ok [("1", format_insertion_text s)]
    ∧ get_comment_anchors (pNode [crs "1", delNode [rDT s], cre "1"]) [] [("1", "")] []
      = .ok [("1", format_deletion_text s)]
    ∧ get_comment_anchors (pNode [crs "1", insNode [Node.mk "w" none none "" [rT s]], cre "1"])
        [] [("1", "")] [] = .ok [("1", s)] := by
  refine ⟨?_, ?_, ?_⟩ <;>
    simp [get_comment_anchors, goNodes, pNode, crs, cre, insNode, delNode, rT, rDT, tNode, dtNode,
      appendToAll, Node.tag, Node.wid, Node.children, except_map_ok, String.empty_append]

/-- C3: `get_paragraph_text` renders an insertion block as
`format_insertion_text` applied exactly once to the concatenation of all
text-leaf content inside the block (`get_plain_text`), and a deletion
block as `format_deletion_text` applied exactly once to that
concatenation, even when the block is nested under any number of
unrecognized wrapper nodes (traversed recursively in document order); a
block whose gathered text is empty contributes nothing. -/
theorem c3_block_formatted_once (k : Nat) (pre post cs : List Node)
    (wid pid : Option String) (txt : String) :
    (get_paragraph_text (pNode (pre ++ wrapK k (Node.mk "ins" wid pid txt cs) :: post))
      = gpt_list pre
        ++ ((if get_plain_text (Node.mk "ins" wid pid txt cs) = "" then ""
             else format_insertion_text (get_plain_text (Node.mk "ins" wid pid txt cs)))
          ++ gpt_list post))
    ∧ (get_paragraph_text (pNode (pre ++ wrapK k (Node.mk "del" wid pid txt cs) :: post))
      = gpt_list pre
        ++ ((if get_plain_text (Node.mk "del" wid pid txt cs) = "" then ""
             else format_deletion_text (get_plain_text (Node.mk "del" wid pid txt cs)))
          ++ gpt_list post)) := by
  constructor <;>
  · show gpt_list (pNode _).children = _
    rw [show (pNode (pre ++ _ :: post)).children = pre ++ _ :: post from rfl,
      gpt_list_append]
    rw [show gpt_list (_ :: post) = gpt_child _ ++ gpt_list post from rfl, gpt_child_wrapK]
    simp [gpt_child, String.append_assoc]

/-- C4: on a paragraph holding an unclosed `commentRangeStart` (id "1")
followed by text and a properly closed range (id "2"),
`get_comment_ids_in_paragraph` discards id "1" with a warning as the spec
requires, but `get_comment_anchors` still pushes "1" into the active set
and indexes the comments dictionary at "1" when the text leaf is reached,
raising a `KeyError` instead of resolving id "2"'s anchor. -/
theorem c4_unclosed_start_keyerror :
    get_comment_ids_in_paragraph (pNode [crs "1", crs "2", rT "hi", cre "2"]) = .ok ["2"]
    ∧ get_comment_anchors (pNode [crs "1", crs "2", rT "hi", cre "2"]) [] [("2", "")] []
      = .error "KeyError: 1" := by
  constructor
  · simp [get_comment_ids_in_paragraph, collectIds, descendants, descList, subtree,
      pNode, crs, cre, rT, tNode, Node.tag, Node.wid, Node.children]
  · simp [get_comment_anchors, goNodes, pNode, crs, cre, rT, tNode, appendToAll,
      Node.tag, Node.wid, Node.children, except_map_error]

/-- C5: `sort_comment_replies` partitions the resolved comments by anchor
equality: every produced thread consists of exactly the ids whose anchor
equals the thread's anchor, in document (opening) order, with the first
opened id as the primary and the rest as replies; thread anchors are
pairwise distinct and every comment lands in some thread; in particular
ids ["5", "7"] both anchored at "foo" produce the single thread with
primary "5" and reply "7". -/
theorem c5_thread_grouping :
    (∀ (comments : List (String × String)) (t : SortedComment),
        t ∈ sort_comment_replies comments →
        t.id :: t.replies = (comments.filter (fun c => c.2 = t.anchor)).map Prod.fst)
    ∧ (∀ comments : List (String × String),
        ((sort_comment_replies comments).map SortedComment.anchor).Nodup)
    ∧ (∀ (comments : List (String × String)) (id anchor : String), (id, anchor) ∈ comments →
        ∃ t ∈ sort_comment_replies comments, t.anchor = anchor)
    ∧ sort_comment_replies [("5", "foo"), ("7", "foo")]
        = [⟨"5", "foo", ["7"]⟩] := by
  refine ⟨?_, ?_, ?_, by decide⟩
  · intro comments t ht
    obtain ⟨g, hg, rfl⟩ := List.mem_map.mp ht
    exact (sort_comment_replies_inv comments).1 g hg
  · intro comments
    have h2 := (sort_comment_replies_inv comments).2.1
    unfold sort_comment_replies
    rw [List.map_map]
    exact h2
  · intro comments id anchor hmem
    obtain ⟨g, hg, hgx⟩ := (sort_comment_replies_inv comments).2.2 (id, anchor) hmem
    exact ⟨⟨g.2.1, g.1, g.2.2⟩, List.mem_map_of_mem _ hg, hgx⟩

/-- C5 witness: the grouping property evaluated on the concrete
two-comment example with shared anchor "foo". -/
theorem c5_thread_grouping_witness :
    ((⟨"5", "foo", ["7"]⟩ : SortedComment).id :: (⟨"5", "foo", ["7"]⟩ : SortedComment).replies)
      = (([("5", "foo"), ("7", "foo")].filter
          (fun c => c.2 = (⟨"5", "foo", ["7"]⟩ : SortedComment).anchor)).map Prod.fst) :=
  c5_thread_grouping.1 [("5", "foo"), ("7", "foo")] ⟨"5", "foo", ["7"]⟩ (by decide)

/-- C6 counterexample: for a comment definition holding two text leaves
" a " and "b", `get_comment_content` attaches the text of the FIRST leaf
only (" a ", untrimmed), not the trimmed concatenation of all text-leaf
content (" a b" concatenated, "a b" trimmed), refuting the claim's body
description. -/
theorem c6_first_leaf_counterexample :
    get_comment_content c6_store [⟨"1", "x", []⟩] = .ok [⟨"1", "x", " a ", []⟩]
    ∧ get_plain_text (Node.mk "comment" (some "1") none ""
        [Node.mk "p" none none ""
          [Node.mk "r" none none "" [tNode " a "],
           Node.mk "r" none none "" [tNode "b"]]]) = " a b"
    ∧ (" a " : String) ≠ " a b"
    ∧ (" a " : String) ≠ "a b" := by
  refine ⟨?_, by decide, by decide, by decide⟩
  simp [get_comment_content, c6_store, find_direct_comment, find_first_t, find_first_t_list,
    find_first_t_node, tNode, Node.tag, Node.wid, Node.children, Node.text, fill_replies]

/-- C6 amended: `get_comment_content` raises a fatal error aborting the
whole extraction whenever a primary or reply id has no `comment`
definition in the store, and otherwise attaches as that id's body the text
of the FIRST text leaf found under the definition node (untrimmed). -/
theorem c6_joiner_amended (comments_root : Node) (id anchor rid : String) :
    (find_direct_comment comments_root id = none →
      get_comment_content comments_root [⟨id, anchor, []⟩]
        = .error ("Couldn't find comment with id=" ++ id))
    ∧ (∀ comment_elem t_elem,
        find_direct_comment comments_root id = some comment_elem →
        find_first_t comment_elem = some t_elem →
        get_comment_content comments_root [⟨id, anchor, []⟩]
          = .ok [⟨id, anchor, t_elem.text, []⟩])
    ∧ (∀ comment_elem t_elem,
        find_direct_comment comments_root id = some comment_elem →
        find_first_t comment_elem = some t_elem →
        find_direct_comment comments_root rid = none →
        get_comment_content comments_root [⟨id, anchor, [rid]⟩]
          = .error ("Couldn't find reply with id=" ++ rid)) := by
  refine ⟨?_, ?_, ?_⟩
  · intro h
    simp only [get_comment_content, h]
  · intro comment_elem t_elem h1 h2
    simp only [get_comment_content, h1, h2, fill_replies]
  · intro comment_elem t_elem h1 h2 h3
    simp only [get_comment_content, h1, h2, fill_replies, h3]

/-- C6 witness: looking up id "9" in an empty store is a fatal error. -/
theorem c6_joiner_witness :
    get_comment_content (Node.mk "comments" none none "" []) [⟨"9", "a", []⟩]
      = .error ("Couldn't find comment with id=" ++ "9") :=
  (c6_joiner_amended (Node.mk "comments" none none "" []) "9" "a" "0").1 rfl

/-- C7: for every index inside the paragraph list and every radius,
`get_context` returns the slice from `max 0 (index - radius)` to
`min length (index + radius + 1)` with exactly one element marked as the
working paragraph, namely the one whose original position equals `index`;
on a 5-element list, index 0 with radius 1 yields elements 0 and 1 with
the subject at window position 0, and index 4 with radius 1 yields
elements 3 and 4 with the subject at window position 1. -/
theorem c7_context_window :
    (∀ {α : Type} (paragraphs : List α) (index radius : Nat), index < paragraphs.length →
      ((get_context paragraphs index radius).map Prod.fst
          = (paragraphs.drop (max 0 (index - radius))).take
              (min paragraphs.length (index + radius + 1) - max 0 (index - radius)))
      ∧ (∀ i p b, (get_context paragraphs index radius).get? i = some (p, b) →
            ((b = true) ↔ max 0 (index - radius) + i = index))
      ∧ ((get_context paragraphs index radius).get? (index - max 0 (index - radius))
          = (paragraphs.get? index).map (fun p => (p, true)))
      ∧ ((get_context paragraphs index radius).filter (fun q => q.2)).length = 1)
    ∧ get_context ([0, 1, 2, 3, 4] : List Nat) 0 1 = [(0, true), (1, false)]
    ∧ get_context ([0, 1, 2, 3, 4] : List Nat) 4 1 = [(3, false), (4, true)] := by
  refine ⟨?_, by decide, by decide⟩
  intro α paragraphs index radius hlt
  have hstart : max 0 (index - radius) = index - radius := by omega
  have hslice : ((paragraphs.drop (index - radius)).take
      (min paragraphs.length (index + radius + 1) - (index - radius))).length
      = min paragraphs.length (index + radius + 1) - (index - radius) := by
    rw [List.length_take, List.length_drop]
    omega
  refine ⟨?_, ?_, ?_, ?_⟩
  · rw [get_context, hstart, mark_working_map_fst]
  · intro i p b hget
    rw [get_context, hstart, mark_working_get?] at hget
    cases hq : (paragraphs.drop (index - radius)).take
        (min paragraphs.length (index + radius + 1) - (index - radius)) |>.get? i with
    | none => rw [hq] at hget; cases hget
    | some q =>
      rw [hq] at hget
      simp only [Option.map_some'] at hget
      injection hget with h2
      have hb : b = (index - radius + i == index) := by
        have h3 := congrArg Prod.snd h2
        simpa using h3.symm
      subst hb
      rw [hstart]
      constructor
      · intro hbt
        have h4 : index - radius + i = index := by simpa using hbt
        omega
      · intro heq
        simpa using heq
  · rw [get_context, hstart, mark_working_get?]
    have hidx : index - (index - radius) < min paragraphs.length (index + radius + 1)
        - (index - radius) := by omega
    rw [List.get?_take hidx, List.get?_drop]
    have harith : index - radius + (index - (index - radius)) = index := by omega
    rw [harith]
    simp
  · rw [get_context, hstart, mark_working_count, hslice, if_pos (by omega)]

/-- C7 witness: the window of the 5-element list at index 0 with radius 1
has exactly one marked subject. -/
theorem c7_context_window_witness :
    ((get_context ([0, 1, 2, 3, 4] : List Nat) 0 1).filter (fun q => q.2)).length = 1 :=
  (c7_context_window.1 [0, 1, 2, 3, 4] 0 1 (by decide)).2.2.2

/-- C8 counterexample: `extract_paragraphs` reads the `w14:paraId`
attribute unconditionally, so a paragraph node that lacks the id attribute
raises a `KeyError` instead of falling back to the positional index. -/
theorem c8_missing_paraid_counterexample :
    extract_paragraphs (Node.mk "body" none none "" [Node.mk "p" none none "" [rT "hi"]])
      = .error "KeyError: w14:paraId" := by
  simp [extract_paragraphs, findAllP, descendants, descList, subtree, extractParas,
    rT, tNode, Node.tag, Node.paraId, Node.children]

/-- C8 amended: `extract_paragraphs` treats the paragraph id attribute as
mandatory: it succeeds when every paragraph node carries `w14:paraId`, and
raises a `KeyError` (no positional-index fallback) whenever some paragraph
node lacks it. -/
theorem c8_paraid_required_amended (root : Node) :
    ((∀ p ∈ findAllP root, p.paraId ≠ none) → ∃ out, extract_paragraphs root = .ok out)
    ∧ (∀ p ∈ findAllP root, p.paraId = none → ∃ e, extract_paragraphs root = .error e) := by
  constructor
  · intro hall
    exact extractParas_ok (findAllP root) [] hall
  · intro p hmem hnone
    exact extractParas_err (findAllP root) [] p hmem hnone

/-- C8 witness: a document whose only paragraph carries a paraId extracts
successfully. -/
theorem c8_paraid_required_witness :
    ∃ out, extract_paragraphs
      (Node.mk "body" none none "" [Node.mk "p" none (some "P1") "" [rT "hi"]]) = .ok out :=
  (c8_paraid_required_amended
      (Node.mk "body" none none "" [Node.mk "p" none (some "P1") "" [rT "hi"]])).1
    (by
      simp [findAllP, descendants, descList, subtree, rT, tNode, Node.children,
        Node.tag, Node.paraId])

/-- C9 counterexample: the regex `.` does not match a newline, so for the
non-empty string consisting of a single newline,
`has_edits (format_insertion_text t)` is false, refuting the claim for
arbitrary non-empty `t`. -/
theorem c9_newline_counterexample :
    has_edits (format_insertion_text "\n") = false ∧ ("\n" : String) ≠ "" := by decide

/-- C9 amended: for every non-empty `t` containing no newline character,
`has_edits (format_insertion_text t)` and
`has_edits (format_deletion_text t)` are both true; and `has_edits` is
false on every string containing neither of the marker glyphs
(no '*' and no '-'). -/
theorem c9_marker_roundtrip_amended :
    (∀ t : String, t ≠ "" → (∀ c ∈ t.data, c ≠ '\n') →
      has_edits (format_insertion_text t) = true ∧ has_edits (format_deletion_text t) = true)
    ∧ (∀ s : String, (∀ c ∈ s.data, c ≠ '*' ∧ c ≠ '-') → has_edits s = false) := by
  constructor
  · intro t _ hnl
    have hnin : '\n' ∉ t.data := fun hin => hnl '\n' hin rfl
    constructor
    · show hasEditsList (format_insertion_text t).data = true
      have hdata : (format_insertion_text t).data
          = '*' :: '*' :: (t.data ++ '*' :: '*' :: []) := by
        simp [format_insertion_text, String.data_append]
      rw [hdata, hasEditsList_cons, openMatch_cons2, if_pos (And.intro rfl rfl),
        closes_of_decomp '*' t.data [] hnin, Bool.true_or]
    · show hasEditsList (format_deletion_text t).data = true
      have hdata : (format_deletion_text t).data
          = '-' :: '-' :: (t.data ++ '-' :: '-' :: []) := by
        simp [format_deletion_text, String.data_append]
      rw [hdata, hasEditsList_cons, openMatch_cons2]
      rw [if_neg (fun h => by exact absurd h.1 (by decide)), if_pos (And.intro rfl rfl),
        closes_of_decomp '-' t.data [] hnin, Bool.true_or]
  · intro s hglyph
    exact noGlyph s.data (fun hin => (hglyph '*' hin).1 rfl) (fun hin => (hglyph '-' hin).2 rfl)

/-- C9 witness: round-trip at the concrete one-character text "a". -/
theorem c9_marker_roundtrip_witness :
    has_edits (format_insertion_text "a") = true ∧ has_edits (format_deletion_text "a") = true :=
  c9_marker_roundtrip_amended.1 "a" (by decide) (by decide)

/-- C10: `has_edits s` is true exactly when `s` contains, with no newline
between the delimiters, a substring of the form `**...**` or `--...--`;
consequently a paragraph without comments whose ordinary text contains
a double-dash-delimited span qualifies as edited and produces a transcript
block in `generate_instructions`, because qualification is purely a
pattern match on the rendered string. -/
theorem c10_has_edits_characterization :
    (∀ s : String, has_edits s = true ↔
      (∃ pre mid post, s.data = pre ++ '*' :: '*' :: (mid ++ '*' :: '*' :: post) ∧ '\n' ∉ mid)
      ∨ (∃ pre mid post, s.data = pre ++ '-' :: '-' :: (mid ++ '-' :: '-' :: post) ∧ '\n' ∉ mid))
    ∧ generate_instructions [⟨"we --like this-- ok", []⟩]
        = [[(⟨"we --like this-- ok", []⟩, true)]] := by
  constructor
  · intro s
    exact hasEditsList_true_iff s.data
  · decide

/-- C10 witness: the characterization applied backwards at a concrete
string containing a double-dash span. -/
theorem c10_has_edits_witness : has_edits "k --a-- m" = true :=
  (c10_has_edits_characterization.1 "k --a-- m").mpr
    (Or.inr ⟨['k', ' '], ['a'], [' ', 'm'], by decide, by decide⟩)
